import Mathlib

/-!
Verification of the `metainfo` crate: a scoped, tree-structured context
store (`MetaInfo` backed by `TypeMap` and a string map) together with the
multi-channel key-value propagation store (`Node` in `kv.rs`).

The Rust hash maps (`HashMap<TypeId, AnyObject>`, `FxHashMap<Cow, Cow>`)
are embedded as association lists with replace-on-insert semantics; the
type-erasure mechanism (`Box<dyn Any>` plus `downcast`) is embedded as a
payload carrying its own runtime type tag, checked against the lookup tag
exactly where the Rust code performs the downcast.
-/

namespace Metainfo

/-- Runtime type identity (`std::any::TypeId`). -/
abbrev TypeId := Nat

section AList

variable {κ : Type} {α : Type} [DecidableEq κ]

/-- First-match lookup in an association list (`HashMap::get`). -/
def alistGet : List (κ × α) → κ → Option α
  | [], _ => none
  | (k', a) :: rest, k => if k' = k then some a else alistGet rest k

/-- Replace-or-append insertion (`HashMap::insert`): the first entry with
the same key is replaced in place; otherwise the pair is appended. -/
def alistInsert : List (κ × α) → κ → α → List (κ × α)
  | [], k, a => [(k, a)]
  | (k', a') :: rest, k, a =>
    if k' = k then (k, a) :: rest else (k', a') :: alistInsert rest k a

/-- Removal of the (first) entry with the given key (`HashMap::remove`). -/
def alistRemove : List (κ × α) → κ → List (κ × α)
  | [], _ => []
  | (k', a') :: rest, k =>
    if k' = k then rest else (k', a') :: alistRemove rest k

/-- Key-membership test (`HashMap::contains_key`). -/
def alistContains : List (κ × α) → κ → Bool
  | [], _ => false
  | (k', _) :: rest, k => decide (k' = k) || alistContains rest k

/-- `HashMap::extend`: insert each of `other`'s entries into `self`,
replacing on key collision. -/
def alistExtend (l other : List (κ × α)) : List (κ × α) :=
  other.foldl (fun acc p => alistInsert acc p.1 p.2) l

/-- The keys of an association list. -/
def alistKeys (l : List (κ × α)) : List κ := l.map Prod.fst

/-- Number of entries carrying the given key. -/
def alistCount : List (κ × α) → κ → Nat
  | [], _ => 0
  | (k', _) :: rest, k => (if k' = k then 1 else 0) + alistCount rest k

end AList

/-- `Box<dyn Any + Send + Sync>`: a value plus its runtime type tag.
`Val` stands for the (erased) universe of stored Rust values. -/
structure AnyObject (Val : Type) where
  tag : TypeId
  val : Val
deriving DecidableEq

/-- `TypeMap` from `type_map.rs`: a hash map from `TypeId` to a boxed
value. -/
structure TypeMap (Val : Type) where
  inner : List (TypeId × AnyObject Val)
deriving DecidableEq

namespace TypeMap

variable {Val : Type}

/-- `TypeMap::default()`. -/
def empty : TypeMap Val := ⟨[]⟩

/-- `TypeMap::insert<T>(t)`: stores `Box::new(t)` under `TypeId::of::<T>()`;
the boxed value's runtime tag is that same `TypeId`. -/
def insert (m : TypeMap Val) (t : TypeId) (v : Val) : TypeMap Val :=
  ⟨alistInsert m.inner t ⟨t, v⟩⟩

/-- `TypeMap::get<T>()`: look up `TypeId::of::<T>()`, then `downcast_ref`,
which yields the payload only when its runtime tag matches. -/
def get (m : TypeMap Val) (t : TypeId) : Option Val :=
  (alistGet m.inner t).bind fun obj =>
    if obj.tag = t then some obj.val else none

/-- `TypeMap::contains<T>()`. -/
def contains (m : TypeMap Val) (t : TypeId) : Bool :=
  alistContains m.inner t

/-- `TypeMap::remove<T>()`: remove the entry for `TypeId::of::<T>()` and
return the payload when the downcast succeeds. -/
def remove (m : TypeMap Val) (t : TypeId) : TypeMap Val × Option Val :=
  match alistGet m.inner t with
  | none => (m, none)
  | some obj =>
    (⟨alistRemove m.inner t⟩, if obj.tag = t then some obj.val else none)

/-- `TypeMap::clear()`. -/
def clear (_ : TypeMap Val) : TypeMap Val := ⟨[]⟩

/-- `TypeMap::extend(other)`: `self.inner.extend(other.inner)`. -/
def extend (m other : TypeMap Val) : TypeMap Val :=
  ⟨alistExtend m.inner other.inner⟩

/-- Well-formedness of a `TypeMap` as produced by the Rust API: keys are
unique (hash-map invariant), and every boxed value is stored under the
`TypeId` it carries (so the downcast at `get`/`remove` cannot fail). -/
def WF (m : TypeMap Val) : Prop :=
  (alistKeys m.inner).Nodup ∧ ∀ p ∈ m.inner, p.2.tag = p.1

end TypeMap

/-- The string map component: `FxHashMap<Cow<str>, Cow<str>>`. -/
abbrev SMap := List (String × String)

/-- `MetaInfo` from `lib.rs`: optional shared parent, lazily created typed
map and string map. -/
inductive MetaInfo (Val : Type) where
  | mk (parent : Option (MetaInfo Val)) (tmap : Option (TypeMap Val))
      (smap : Option SMap)

namespace MetaInfo

variable {Val : Type}

/-- The `parent` field. -/
def parent : MetaInfo Val → Option (MetaInfo Val)
  | .mk p _ _ => p

/-- The `tmap` field. -/
def tmap : MetaInfo Val → Option (TypeMap Val)
  | .mk _ t _ => t

/-- The `smap` field. -/
def smap : MetaInfo Val → Option SMap
  | .mk _ _ s => s

/-- `MetaInfo::new()`: all fields default to `None`. -/
def new : MetaInfo Val := .mk none none none

/-- `MetaInfo::from(parent)`. -/
def fromParent (p : MetaInfo Val) : MetaInfo Val := .mk (some p) none none

/-- `MetaInfo::insert<T>(val)`:
`self.tmap.get_or_insert_with(TypeMap::default).insert(val)`. -/
def insert (m : MetaInfo Val) (t : TypeId) (v : Val) : MetaInfo Val :=
  match m with
  | .mk p tm sm => .mk p (some ((tm.getD TypeMap.empty).insert t v)) sm

/-- `MetaInfo::insert_string(key, val)`. -/
def insertString (m : MetaInfo Val) (k v : String) : MetaInfo Val :=
  match m with
  | .mk p tm sm => .mk p tm (some (alistInsert (sm.getD []) k v))

/-- `MetaInfo::get<T>()`: local typed lookup
(`self.tmap.as_ref().and_then(get)`), falling back via `or_else` to the
parent chain on a miss; with no parent the `or_else` closure yields
`None`. -/
def get : MetaInfo Val → TypeId → Option Val
  | .mk none tm _, t => tm.bind fun m0 => m0.get t
  | .mk (some par) tm _, t =>
    (tm.bind fun m0 => m0.get t).orElse fun _ => par.get t

/-- `MetaInfo::get_string(key)`: local string lookup, falling back via
`or_else` to the parent chain on a miss. -/
def getString : MetaInfo Val → String → Option String
  | .mk none _ sm, k => sm.bind fun m0 => alistGet m0 k
  | .mk (some par) _ sm, k =>
    (sm.bind fun m0 => alistGet m0 k).orElse fun _ => par.getString k

/-- `MetaInfo::contains<T>()`: local key test
(`self.tmap.as_ref().map(contains).unwrap_or(false)`), then the parent
(`self.parent.as_ref().map(contains).unwrap_or(false)`). -/
def contains : MetaInfo Val → TypeId → Bool
  | .mk none tm _, t => (tm.map fun m0 => m0.contains t).getD false
  | .mk (some par) tm _, t =>
    if (tm.map fun m0 => m0.contains t).getD false then true
    else par.contains t

/-- `MetaInfo::contains_string(key)`. -/
def containsString : MetaInfo Val → String → Bool
  | .mk none _ sm, k => (sm.map fun m0 => alistContains m0 k).getD false
  | .mk (some par) _ sm, k =>
    if (sm.map fun m0 => alistContains m0 k).getD false then true
    else par.containsString k

/-- `MetaInfo::remove<T>()`: removes only from the local typed map; the
returned pair is (updated `MetaInfo`, removed value). -/
def remove (m : MetaInfo Val) (t : TypeId) : MetaInfo Val × Option Val :=
  match m with
  | .mk p tm sm =>
    match tm with
    | none => (.mk p none sm, none)
    | some m0 =>
      let r := m0.remove t
      (.mk p (some r.1) sm, r.2)

/-- `MetaInfo::remove_string(key)`: removes only from the local string
map. -/
def removeString (m : MetaInfo Val) (k : String) : MetaInfo Val × Option String :=
  match m with
  | .mk p tm sm =>
    match sm with
    | none => (.mk p tm none, none)
    | some m0 =>
      (.mk p tm (some (alistRemove m0 k)), alistGet m0 k)

/-- `MetaInfo::clear()`: empties the local maps when they exist. -/
def clear (m : MetaInfo Val) : MetaInfo Val :=
  match m with
  | .mk p tm sm =>
    .mk p (tm.map fun m0 => m0.clear) (sm.map fun _ => ([] : SMap))

/-- `MetaInfo::extend(other)`: merges `other`'s local typed and string
entries into the local maps; `other`'s parent is not consulted. -/
def extend (m other : MetaInfo Val) : MetaInfo Val :=
  match m, other with
  | .mk p tm sm, .mk _ otm osm =>
    let tm' := match otm with
      | none => tm
      | some ot => some ((tm.getD TypeMap.empty).extend ot)
    let sm' := match osm with
      | none => sm
      | some os => some (alistExtend (sm.getD []) os)
    .mk p tm' sm'

/-- Well-formedness of every scope along the parent chain. -/
def WF : MetaInfo Val → Prop
  | .mk p tm sm =>
    (∀ m0 ∈ tm, m0.WF) ∧ (∀ m0 ∈ sm, (alistKeys m0).Nodup) ∧
      (∀ par ∈ p, par.WF)

/-- The local typed lookup of a scope (`self.tmap.as_ref().and_then(get)`,
no parent fallback). -/
def localGetT (m : MetaInfo Val) (t : TypeId) : Option Val :=
  m.tmap.bind fun m0 => m0.get t

/-- The local string lookup of a scope (no parent fallback). -/
def localGetS (m : MetaInfo Val) (k : String) : Option String :=
  m.smap.bind fun m0 => alistGet m0 k

/-- Raw key test on the local typed map (no parent fallback, no
downcast). -/
def localContainsT (m : MetaInfo Val) (t : TypeId) : Bool :=
  (m.tmap.map fun m0 => m0.contains t).getD false

/-- Raw key test on the local string map (no parent fallback). -/
def localContainsS (m : MetaInfo Val) (k : String) : Bool :=
  (m.smap.map fun m0 => alistContains m0 k).getD false

/-- Number of entries for a key in the local string map. -/
def localCountS (m : MetaInfo Val) (k : String) : Nat :=
  alistCount (m.smap.getD []) k

/-- Number of entries for a type id in the local typed map. -/
def localCountT (m : MetaInfo Val) (t : TypeId) : Nat :=
  alistCount ((m.tmap.getD TypeMap.empty).inner) t

end MetaInfo

/-- One key-value pair (`KV` in `kv.rs`); immutable once constructed. -/
structure KV where
  key : String
  value : String
deriving DecidableEq

/-- First-match lookup in a channel sequence (`get_impl`:
`v.iter().find(|kv| kv.key == key)`). -/
def kvFind : List KV → String → Option String
  | [], _ => none
  | kv :: rest, k => if kv.key = k then some kv.value else kvFind rest k

/-- Removal of the first entry with a matching key (`del_impl`:
`position` then `remove(index)`); no match leaves the list unchanged. -/
def kvRemoveFirst : List KV → String → List KV
  | [], _ => []
  | kv :: rest, k => if kv.key = k then rest else kv :: kvRemoveFirst rest k

/-- `set_impl`: ensure the channel sequence exists, then push the new KV
at the end — unconditionally, even when the key is already present. -/
def setChannel (ch : Option (List KV)) (k v : String) : Option (List KV) :=
  some (ch.getD [] ++ [⟨k, v⟩])

/-- `set_impl` with the `unwrap` made explicit: after the `is_none` check
installs an empty vector, `as_mut().unwrap()` is modelled as a match whose
`none` branch is the panic. -/
def setChannelChecked (ch : Option (List KV)) (k v : String) :
    Option (Option (List KV)) :=
  let ch' := if ch.isNone then some [] else ch
  match ch' with
  | some l => some (some (l ++ [⟨k, v⟩]))
  | none => none

/-- `del_impl`: on an absent sequence do nothing; otherwise drop the first
matching entry. -/
def delChannel (ch : Option (List KV)) (k : String) : Option (List KV) :=
  ch.map fun l => kvRemoveFirst l k

/-- `get_impl`: on an absent sequence return `None`; otherwise the value
of the first entry whose key matches. -/
def getChannel (ch : Option (List KV)) (k : String) : Option String :=
  ch.bind fun l => kvFind l k

/-- `Node` from `kv.rs`: one optional ordered sequence per channel. -/
structure Node where
  persistent : Option (List KV)
  transient : Option (List KV)
  stale : Option (List KV)
deriving DecidableEq

namespace Node

/-- `Node::default()`: every channel starts absent. -/
def default : Node := ⟨none, none, none⟩

/-- `set_persistent` (generated by `set_impl!(persistent)`). -/
def set_persistent (n : Node) (k v : String) : Node :=
  { n with persistent := setChannel n.persistent k v }

/-- `set_transient`. -/
def set_transient (n : Node) (k v : String) : Node :=
  { n with transient := setChannel n.transient k v }

/-- `set_stale`. -/
def set_stale (n : Node) (k v : String) : Node :=
  { n with stale := setChannel n.stale k v }

/-- `del_persistent`. -/
def del_persistent (n : Node) (k : String) : Node :=
  { n with persistent := delChannel n.persistent k }

/-- `del_transient`. -/
def del_transient (n : Node) (k : String) : Node :=
  { n with transient := delChannel n.transient k }

/-- `del_stale`. -/
def del_stale (n : Node) (k : String) : Node :=
  { n with stale := delChannel n.stale k }

/-- `get_persistent`. -/
def get_persistent (n : Node) (k : String) : Option String :=
  getChannel n.persistent k

/-- `get_transient`. -/
def get_transient (n : Node) (k : String) : Option String :=
  getChannel n.transient k

/-- `get_stale`. -/
def get_stale (n : Node) (k : String) : Option String :=
  getChannel n.stale k

end Node

section AListLemmas

variable {κ : Type} {α : Type} [DecidableEq κ]

theorem alistKeys_nil : alistKeys ([] : List (κ × α)) = [] := rfl

theorem alistKeys_cons (p : κ × α) (rest : List (κ × α)) :
    alistKeys (p :: rest) = p.1 :: alistKeys rest := rfl

theorem alistGet_insert_self (l : List (κ × α)) (k : κ) (a : α) :
    alistGet (alistInsert l k a) k = some a := by
  induction l with
  | nil => simp [alistInsert, alistGet]
  | cons p rest ih =>
    obtain ⟨k', a'⟩ := p
    by_cases h : k' = k <;> simp [alistInsert, alistGet, h, ih]

theorem alistGet_insert_ne (l : List (κ × α)) (k k' : κ) (a : α)
    (h : k' ≠ k) : alistGet (alistInsert l k a) k' = alistGet l k' := by
  have hne : ¬ k = k' := fun h1 => h h1.symm
  induction l with
  | nil => simp [alistInsert, alistGet, hne]
  | cons p rest ih =>
    obtain ⟨k₀, a₀⟩ := p
    by_cases h0 : k₀ = k
    · subst h0
      simp [alistInsert, alistGet, hne]
    · simp [alistInsert, alistGet, h0, ih]

theorem alistGet_eq_none_iff (l : List (κ × α)) (k : κ) :
    alistGet l k = none ↔ k ∉ alistKeys l := by
  induction l with
  | nil => simp [alistGet, alistKeys_nil]
  | cons p rest ih =>
    obtain ⟨k', a'⟩ := p
    by_cases h : k' = k
    · subst h
      simp [alistGet, alistKeys_cons]
    · simp [alistGet, alistKeys_cons, h, Ne.symm h, ih]

theorem alistGet_remove_self (l : List (κ × α)) (k : κ)
    (h : (alistKeys l).Nodup) : alistGet (alistRemove l k) k = none := by
  induction l with
  | nil => simp [alistRemove, alistGet]
  | cons p rest ih =>
    obtain ⟨k', a'⟩ := p
    rw [alistKeys_cons] at h
    obtain ⟨hmem, hnd⟩ := List.nodup_cons.mp h
    by_cases h0 : k' = k
    · subst h0
      simp [alistRemove]
      exact (alistGet_eq_none_iff rest k').mpr hmem
    · simp [alistRemove, alistGet, h0, ih hnd]

theorem alistGet_remove_ne (l : List (κ × α)) (k k' : κ)
    (h : k' ≠ k) : alistGet (alistRemove l k) k' = alistGet l k' := by
  induction l with
  | nil => simp [alistRemove]
  | cons p rest ih =>
    obtain ⟨k₀, a₀⟩ := p
    by_cases h0 : k₀ = k
    · subst h0
      simp [alistRemove, alistGet, Ne.symm h]
    · simp [alistRemove, alistGet, h0, ih]

theorem alistContains_eq_isSome (l : List (κ × α)) (k : κ) :
    alistContains l k = (alistGet l k).isSome := by
  induction l with
  | nil => simp [alistContains, alistGet]
  | cons p rest ih =>
    obtain ⟨k', a'⟩ := p
    by_cases h : k' = k <;> simp [alistContains, alistGet, h, ih]

theorem alistRemove_of_get_none (l : List (κ × α)) (k : κ)
    (h : alistGet l k = none) : alistRemove l k = l := by
  induction l with
  | nil => rfl
  | cons p rest ih =>
    obtain ⟨k', a'⟩ := p
    by_cases h0 : k' = k
    · simp [alistGet, h0] at h
    · simp [alistGet, h0] at h
      simp [alistRemove, h0, ih h]

theorem alistKeys_insert (l : List (κ × α)) (k : κ) (a : α) :
    alistKeys (alistInsert l k a) =
      if k ∈ alistKeys l then alistKeys l else alistKeys l ++ [k] := by
  induction l with
  | nil => simp [alistInsert, alistKeys_nil, alistKeys_cons]
  | cons p rest ih =>
    obtain ⟨k', a'⟩ := p
    by_cases h0 : k' = k
    · subst h0
      simp [alistInsert, alistKeys_cons]
    · have h0' : ¬ k = k' := fun h1 => h0 h1.symm
      by_cases h1 : k ∈ alistKeys rest <;>
        simp [alistInsert, alistKeys_cons, h0, h0', h1, ih]

theorem alistKeys_insert_nodup (l : List (κ × α)) (k : κ) (a : α)
    (h : (alistKeys l).Nodup) : (alistKeys (alistInsert l k a)).Nodup := by
  rw [alistKeys_insert]
  by_cases h1 : k ∈ alistKeys l
  · simpa [h1] using h
  · simp [h1, List.nodup_append, h]

theorem alistRemove_sublist (l : List (κ × α)) (k : κ) :
    (alistRemove l k).Sublist l := by
  induction l with
  | nil => simp [alistRemove]
  | cons p rest ih =>
    obtain ⟨k', a'⟩ := p
    by_cases h : k' = k
    · simpa [alistRemove, h] using List.sublist_cons_self _ _
    · simpa [alistRemove, h] using List.Sublist.cons₂ ((k', a')) ih

theorem alistKeys_remove_nodup (l : List (κ × α)) (k : κ)
    (h : (alistKeys l).Nodup) : (alistKeys (alistRemove l k)).Nodup :=
  List.Nodup.sublist (List.Sublist.map Prod.fst (alistRemove_sublist l k)) h

theorem mem_alistInsert (l : List (κ × α)) (k : κ) (a : α) (p : κ × α)
    (hp : p ∈ alistInsert l k a) : p = (k, a) ∨ p ∈ l := by
  induction l with
  | nil => simpa [alistInsert] using hp
  | cons q rest ih =>
    obtain ⟨k', a'⟩ := q
    by_cases h : k' = k
    · simp only [alistInsert, if_pos h] at hp
      rcases List.mem_cons.mp hp with hp | hp
      · exact Or.inl hp
      · exact Or.inr (List.mem_cons_of_mem _ hp)
    · simp only [alistInsert, if_neg h] at hp
      rcases List.mem_cons.mp hp with hp | hp
      · exact Or.inr (by simp [hp])
      · rcases ih hp with h1 | h1
        · exact Or.inl h1
        · exact Or.inr (List.mem_cons_of_mem _ h1)

theorem mem_alistExtend (l other : List (κ × α)) (p : κ × α)
    (hp : p ∈ alistExtend l other) : p ∈ l ∨ p ∈ other := by
  induction other generalizing l with
  | nil => exact Or.inl (by simpa [alistExtend] using hp)
  | cons q rest ih =>
    have hp' : p ∈ alistExtend (alistInsert l q.1 q.2) rest := by
      simpa [alistExtend] using hp
    rcases ih _ hp' with h1 | h1
    · rcases mem_alistInsert _ _ _ _ h1 with h2 | h2
      · exact Or.inr (by simp [h2])
      · exact Or.inl h2
    · exact Or.inr (List.mem_cons_of_mem _ h1)

theorem alistKeys_extend_nodup (l other : List (κ × α))
    (h : (alistKeys l).Nodup) : (alistKeys (alistExtend l other)).Nodup := by
  induction other generalizing l with
  | nil => simpa [alistExtend] using h
  | cons q rest ih =>
    have h1 : (alistKeys (alistInsert l q.1 q.2)).Nodup :=
      alistKeys_insert_nodup l q.1 q.2 h
    simpa [alistExtend] using ih _ h1

theorem alistGet_extend_of_none (l other : List (κ × α)) (k : κ)
    (h : alistGet other k = none) :
    alistGet (alistExtend l other) k = alistGet l k := by
  induction other generalizing l with
  | nil => simp [alistExtend]
  | cons q rest ih =>
    obtain ⟨k', a'⟩ := q
    by_cases h0 : k' = k
    · simp [alistGet, h0] at h
    · simp [alistGet, h0] at h
      have := ih (alistInsert l k' a') h
      simpa [alistExtend, alistGet_insert_ne l k' k a' (fun h1 => h0 h1.symm)]
        using this

theorem alistGet_extend_of_some (l other : List (κ × α)) (k : κ) (a : α)
    (hn : (alistKeys other).Nodup) (h : alistGet other k = some a) :
    alistGet (alistExtend l other) k = some a := by
  induction other generalizing l with
  | nil => simp [alistGet] at h
  | cons q rest ih =>
    obtain ⟨k', a'⟩ := q
    rw [alistKeys_cons] at hn
    obtain ⟨hmem, hnd⟩ := List.nodup_cons.mp hn
    by_cases h0 : k' = k
    · subst h0
      simp [alistGet] at h
      have hnone : alistGet rest k' = none :=
        (alistGet_eq_none_iff rest k').mpr hmem
      have h2 := alistGet_extend_of_none (alistInsert l k' a') rest k' hnone
      rw [alistGet_insert_self] at h2
      simpa [alistExtend, h] using h2
    · simp [alistGet, h0] at h
      have := ih (alistInsert l k' a') hnd h
      simpa [alistExtend] using this

theorem alistCount_eq_zero (l : List (κ × α)) (k : κ)
    (h : k ∉ alistKeys l) : alistCount l k = 0 := by
  induction l with
  | nil => rfl
  | cons p rest ih =>
    obtain ⟨k', a'⟩ := p
    rw [alistKeys_cons] at h
    simp at h
    simp [alistCount, Ne.symm h.1, ih h.2]

theorem alistCount_insert_nodup (l : List (κ × α)) (k : κ) (a : α)
    (h : (alistKeys l).Nodup) : alistCount (alistInsert l k a) k = 1 := by
  induction l with
  | nil => simp [alistInsert, alistCount]
  | cons p rest ih =>
    obtain ⟨k', a'⟩ := p
    rw [alistKeys_cons] at h
    obtain ⟨hmem, hnd⟩ := List.nodup_cons.mp h
    by_cases h0 : k' = k
    · subst h0
      simp [alistInsert, alistCount, alistCount_eq_zero rest k' hmem]
    · simp [alistInsert, alistCount, h0, ih hnd]

end AListLemmas

section AListMemLemmas

variable {κ : Type} {α : Type} [DecidableEq κ]

theorem alistGet_mem (l : List (κ × α)) (k : κ) (a : α)
    (h : alistGet l k = some a) : (k, a) ∈ l := by
  induction l with
  | nil => simp [alistGet] at h
  | cons p rest ih =>
    obtain ⟨k', a'⟩ := p
    by_cases h0 : k' = k
    · subst h0
      simp [alistGet] at h
      simp [h]
    · simp [alistGet, h0] at h
      exact List.mem_cons_of_mem _ (ih h)

end AListMemLemmas

namespace TypeMap

variable {Val : Type}

/-- The tag half of `WF`: every boxed value sits under its own type id. -/
def Tagged (m : TypeMap Val) : Prop := ∀ p ∈ m.inner, p.2.tag = p.1

theorem get_empty (t : TypeId) : (empty : TypeMap Val).get t = none := rfl

theorem get_clear (m : TypeMap Val) (t : TypeId) : m.clear.get t = none := rfl

theorem get_insert_self (m : TypeMap Val) (t : TypeId) (v : Val) :
    (m.insert t v).get t = some v := by
  simp [get, insert, alistGet_insert_self]

theorem get_insert_ne (m : TypeMap Val) (t t' : TypeId) (v : Val)
    (h : t' ≠ t) : (m.insert t v).get t' = m.get t' := by
  simp [get, insert, alistGet_insert_ne _ _ _ _ h]

theorem get_remove_self (m : TypeMap Val) (t : TypeId)
    (h : (alistKeys m.inner).Nodup) : (m.remove t).1.get t = none := by
  cases hg : alistGet m.inner t with
  | none => simp [remove, hg, get]
  | some obj => simp [remove, hg, get, alistGet_remove_self _ _ h]

theorem get_remove_ne (m : TypeMap Val) (t t' : TypeId)
    (h : t' ≠ t) : (m.remove t).1.get t' = m.get t' := by
  cases hg : alistGet m.inner t with
  | none => simp [remove, hg]
  | some obj => simp [remove, hg, get, alistGet_remove_ne _ _ _ h]

theorem get_eq_raw (m : TypeMap Val) (t : TypeId) (h : m.Tagged) :
    m.get t = (alistGet m.inner t).map AnyObject.val := by
  cases hg : alistGet m.inner t with
  | none => simp [get, hg]
  | some obj =>
    have htag : obj.tag = t := h _ (alistGet_mem _ _ _ hg)
    simp [get, hg, htag]

theorem remove_snd_eq_raw (m : TypeMap Val) (t : TypeId) (h : m.Tagged) :
    (m.remove t).2 = (alistGet m.inner t).map AnyObject.val := by
  cases hg : alistGet m.inner t with
  | none => simp [remove, hg]
  | some obj =>
    have htag : obj.tag = t := h _ (alistGet_mem _ _ _ hg)
    simp [remove, hg, htag]

theorem contains_eq_isSome (m : TypeMap Val) (t : TypeId) (h : m.Tagged) :
    m.contains t = (m.get t).isSome := by
  rw [get_eq_raw m t h, contains, alistContains_eq_isSome]
  cases alistGet m.inner t <;> rfl

theorem wf_empty : (empty : TypeMap Val).WF :=
  ⟨by simp [empty, alistKeys_nil], by simp [empty]⟩

theorem insert_wf (m : TypeMap Val) (t : TypeId) (v : Val) (h : m.WF) :
    (m.insert t v).WF := by
  obtain ⟨h1, h2⟩ := h
  refine ⟨alistKeys_insert_nodup _ _ _ h1, fun p hp => ?_⟩
  rcases mem_alistInsert _ _ _ _ hp with h3 | h3
  · subst h3; rfl
  · exact h2 _ h3

theorem remove_wf (m : TypeMap Val) (t : TypeId) (h : m.WF) :
    (m.remove t).1.WF := by
  obtain ⟨h1, h2⟩ := h
  cases hg : alistGet m.inner t with
  | none => exact ⟨by simpa [remove, hg] using h1, by simpa [remove, hg] using h2⟩
  | some obj =>
    refine ⟨by simpa [remove, hg] using alistKeys_remove_nodup _ t h1,
      fun p hp => h2 p ?_⟩
    exact (alistRemove_sublist m.inner t).subset (by simpa [remove, hg] using hp)

theorem clear_wf (m : TypeMap Val) : m.clear.WF :=
  ⟨by simp [clear, alistKeys_nil], by simp [clear]⟩

theorem extend_wf (m other : TypeMap Val) (h : m.WF) (h' : other.Tagged) :
    (m.extend other).WF := by
  obtain ⟨h1, h2⟩ := h
  refine ⟨alistKeys_extend_nodup _ _ h1, fun p hp => ?_⟩
  rcases mem_alistExtend _ _ _ hp with h3 | h3
  · exact h2 _ h3
  · exact h' _ h3

end TypeMap

section KVLemmas

theorem kvFind_append (l1 l2 : List KV) (k : String) :
    kvFind (l1 ++ l2) k =
      match kvFind l1 k with
      | some v => some v
      | none => kvFind l2 k := by
  induction l1 with
  | nil => simp [kvFind]
  | cons kv rest ih =>
    by_cases h : kv.key = k <;> simp [kvFind, h, ih]

theorem kvFind_eq_none_iff (l : List KV) (k : String) :
    kvFind l k = none ↔ ∀ kv ∈ l, kv.key ≠ k := by
  induction l with
  | nil => simp [kvFind]
  | cons kv rest ih =>
    by_cases h : kv.key = k <;> simp [kvFind, h, ih]

theorem kvRemoveFirst_append_of_none (l1 l2 : List KV) (k : String)
    (h : kvFind l1 k = none) :
    kvRemoveFirst (l1 ++ l2) k = l1 ++ kvRemoveFirst l2 k := by
  induction l1 with
  | nil => simp [kvRemoveFirst]
  | cons kv rest ih =>
    by_cases h0 : kv.key = k
    · simp [kvFind, h0] at h
    · simp [kvFind, h0] at h
      simp [kvRemoveFirst, h0, ih h]

theorem getChannel_getD_none (ch : Option (List KV)) (k : String)
    (h : getChannel ch k = none) : kvFind (ch.getD []) k = none := by
  cases ch with
  | none => rfl
  | some l => simpa [getChannel] using h

theorem getChannel_set_set (ch : Option (List KV)) (k v1 v2 : String)
    (h : getChannel ch k = none) :
    getChannel (setChannel (setChannel ch k v1) k v2) k = some v1 := by
  have hl := getChannel_getD_none ch k h
  show getChannel (some ((ch.getD [] ++ [⟨k, v1⟩]) ++ [⟨k, v2⟩])) k = some v1
  simp [getChannel, kvFind_append, hl, kvFind]

theorem getChannel_del_set_set (ch : Option (List KV)) (k v1 v2 : String)
    (h : getChannel ch k = none) :
    getChannel (delChannel (setChannel (setChannel ch k v1) k v2) k) k
      = some v2 := by
  have hl := getChannel_getD_none ch k h
  show getChannel
    (some (kvRemoveFirst ((ch.getD [] ++ [⟨k, v1⟩]) ++ [⟨k, v2⟩]) k)) k
      = some v2
  rw [List.append_assoc, kvRemoveFirst_append_of_none _ _ _ hl]
  simp [getChannel, kvRemoveFirst, kvFind_append, hl, kvFind]

end KVLemmas

namespace TypeMap

variable {Val : Type}

theorem get_extend_of_none (m other : TypeMap Val) (t : TypeId)
    (h : alistGet other.inner t = none) :
    (m.extend other).get t = m.get t := by
  simp [get, extend, alistGet_extend_of_none _ _ _ h]

theorem get_extend_of_some (m other : TypeMap Val) (t : TypeId) (v : Val)
    (hn : (alistKeys other.inner).Nodup) (h : other.get t = some v) :
    (m.extend other).get t = some v := by
  cases hg : alistGet other.inner t with
  | none => simp [get, hg] at h
  | some obj =>
    simp [get, hg] at h
    obtain ⟨htag, hval⟩ := h
    simp [get, extend, alistGet_extend_of_some _ _ _ _ hn hg, htag, hval]

theorem contains_eq_get_isSome_raw (m : TypeMap Val) (t : TypeId)
    (h : m.contains t = false) : alistGet m.inner t = none := by
  rw [contains, alistContains_eq_isSome] at h
  cases hg : alistGet m.inner t with
  | none => rfl
  | some obj => simp [hg] at h

end TypeMap

namespace MetaInfo

variable {Val : Type}

theorem get_local_some (m : MetaInfo Val) (t : TypeId) (v : Val)
    (h : m.localGetT t = some v) : m.get t = some v := by
  obtain ⟨p, tm, sm⟩ := m
  simp only [localGetT, tmap] at h
  cases p <;> simp [get, h, Option.orElse]

theorem get_local_none (m : MetaInfo Val) (t : TypeId) (p : MetaInfo Val)
    (hl : m.localGetT t = none) (hp : m.parent = some p) :
    m.get t = p.get t := by
  obtain ⟨q, tm, sm⟩ := m
  simp only [localGetT, tmap] at hl
  simp only [parent] at hp
  subst hp
  simp [get, hl, Option.orElse]

theorem get_root_none (m : MetaInfo Val) (t : TypeId)
    (hl : m.localGetT t = none) (hp : m.parent = none) :
    m.get t = none := by
  obtain ⟨q, tm, sm⟩ := m
  simp only [localGetT, tmap] at hl
  simp only [parent] at hp
  subst hp
  simp [get, hl]

theorem getString_local_some (m : MetaInfo Val) (k : String) (v : String)
    (h : m.localGetS k = some v) : m.getString k = some v := by
  obtain ⟨p, tm, sm⟩ := m
  simp only [localGetS, smap] at h
  cases p <;> simp [getString, h, Option.orElse]

theorem getString_local_none (m : MetaInfo Val) (k : String) (p : MetaInfo Val)
    (hl : m.localGetS k = none) (hp : m.parent = some p) :
    m.getString k = p.getString k := by
  obtain ⟨q, tm, sm⟩ := m
  simp only [localGetS, smap] at hl
  simp only [parent] at hp
  subst hp
  simp [getString, hl, Option.orElse]

theorem getString_root_none (m : MetaInfo Val) (k : String)
    (hl : m.localGetS k = none) (hp : m.parent = none) :
    m.getString k = none := by
  obtain ⟨q, tm, sm⟩ := m
  simp only [localGetS, smap] at hl
  simp only [parent] at hp
  subst hp
  simp [getString, hl]

theorem get_fromParent (p : MetaInfo Val) (t : TypeId) :
    (fromParent p).get t = p.get t := by
  simp [fromParent, get]

theorem getString_fromParent (p : MetaInfo Val) (k : String) :
    (fromParent p).getString k = p.getString k := by
  simp [fromParent, getString]

theorem get_new (t : TypeId) : (new : MetaInfo Val).get t = none := rfl

theorem getString_new (k : String) :
    (new : MetaInfo Val).getString k = none := rfl

theorem parent_insert (m : MetaInfo Val) (t : TypeId) (v : Val) :
    (m.insert t v).parent = m.parent := by
  cases m
  rfl

theorem parent_insertString (m : MetaInfo Val) (k v : String) :
    (m.insertString k v).parent = m.parent := by
  cases m
  rfl

theorem parent_remove (m : MetaInfo Val) (t : TypeId) :
    (m.remove t).1.parent = m.parent := by
  obtain ⟨p, tm, sm⟩ := m
  cases tm <;> rfl

theorem parent_removeString (m : MetaInfo Val) (k : String) :
    (m.removeString k).1.parent = m.parent := by
  obtain ⟨p, tm, sm⟩ := m
  cases sm <;> rfl

theorem parent_clear (m : MetaInfo Val) : m.clear.parent = m.parent := by
  cases m
  rfl

theorem parent_extend (m other : MetaInfo Val) :
    (m.extend other).parent = m.parent := by
  cases m
  cases other
  rfl

theorem smap_insert (m : MetaInfo Val) (t : TypeId) (v : Val) :
    (m.insert t v).smap = m.smap := by
  cases m
  rfl

theorem tmap_insertString (m : MetaInfo Val) (k v : String) :
    (m.insertString k v).tmap = m.tmap := by
  cases m
  rfl

theorem smap_remove (m : MetaInfo Val) (t : TypeId) :
    (m.remove t).1.smap = m.smap := by
  obtain ⟨p, tm, sm⟩ := m
  cases tm <;> rfl

theorem tmap_removeString (m : MetaInfo Val) (k : String) :
    (m.removeString k).1.tmap = m.tmap := by
  obtain ⟨p, tm, sm⟩ := m
  cases sm <;> rfl

theorem localGetT_insert_self (m : MetaInfo Val) (t : TypeId) (v : Val) :
    (m.insert t v).localGetT t = some v := by
  obtain ⟨p, tm, sm⟩ := m
  simp [insert, localGetT, tmap, TypeMap.get_insert_self]

theorem localGetT_insert_ne (m : MetaInfo Val) (t t' : TypeId) (v : Val)
    (h : t' ≠ t) : (m.insert t v).localGetT t' = m.localGetT t' := by
  obtain ⟨p, tm, sm⟩ := m
  cases tm <;>
    simp [insert, localGetT, tmap, TypeMap.get_insert_ne _ _ _ _ h,
      TypeMap.get_empty]

theorem localGetS_insertString_self (m : MetaInfo Val) (k v : String) :
    (m.insertString k v).localGetS k = some v := by
  obtain ⟨p, tm, sm⟩ := m
  simp [insertString, localGetS, smap, alistGet_insert_self]

theorem localGetT_remove_self (m : MetaInfo Val) (t : TypeId)
    (h : ∀ m0 ∈ m.tmap, (alistKeys m0.inner).Nodup) :
    (m.remove t).1.localGetT t = none := by
  obtain ⟨p, tm, sm⟩ := m
  cases tm with
  | none => rfl
  | some m0 =>
    simp [tmap] at h
    simp [remove, localGetT, tmap, TypeMap.get_remove_self m0 t h]

theorem localGetT_clear (m : MetaInfo Val) (t : TypeId) :
    m.clear.localGetT t = none := by
  obtain ⟨p, tm, sm⟩ := m
  cases tm <;> simp [clear, localGetT, tmap, TypeMap.get_clear]

theorem localGetS_clear (m : MetaInfo Val) (k : String) :
    m.clear.localGetS k = none := by
  obtain ⟨p, tm, sm⟩ := m
  cases sm <;> simp [clear, localGetS, smap, alistGet]

theorem localContainsT_eq_false_localGetT (m : MetaInfo Val) (t : TypeId)
    (h : m.localContainsT t = false) : m.localGetT t = none := by
  obtain ⟨p, tm, sm⟩ := m
  cases tm with
  | none => rfl
  | some m0 =>
    simp [localContainsT, tmap] at h
    simp [localGetT, tmap, TypeMap.get,
      TypeMap.contains_eq_get_isSome_raw m0 t h]

theorem remove_no_op (m : MetaInfo Val) (t : TypeId)
    (h : m.localContainsT t = false) : m.remove t = (m, none) := by
  obtain ⟨p, tm, sm⟩ := m
  cases tm with
  | none => rfl
  | some m0 =>
    simp [localContainsT, tmap] at h
    have hg : alistGet m0.inner t = none :=
      TypeMap.contains_eq_get_isSome_raw m0 t h
    simp [remove, TypeMap.remove, hg]

theorem removeString_no_op (m : MetaInfo Val) (k : String)
    (h : m.localContainsS k = false) : m.removeString k = (m, none) := by
  obtain ⟨p, tm, sm⟩ := m
  cases sm with
  | none => rfl
  | some m0 =>
    simp [localContainsS, smap] at h
    rw [alistContains_eq_isSome] at h
    cases hg : alistGet m0 k with
    | none => simp [removeString, hg, alistRemove_of_get_none m0 k hg]
    | some v => simp [hg] at h

theorem extend_ignores_other_parent (m : MetaInfo Val)
    (q q' : Option (MetaInfo Val)) (otm : Option (TypeMap Val))
    (osm : Option SMap) :
    m.extend (MetaInfo.mk q otm osm) = m.extend (MetaInfo.mk q' otm osm) := by
  cases m
  rfl

theorem localGetT_extend_of_some (m other : MetaInfo Val) (t : TypeId)
    (v : Val) (hn : ∀ m0 ∈ other.tmap, (alistKeys m0.inner).Nodup)
    (h : other.localGetT t = some v) :
    (m.extend other).localGetT t = some v := by
  obtain ⟨p, tm, sm⟩ := m
  obtain ⟨q, otm, osm⟩ := other
  cases otm with
  | none => simp [localGetT, tmap] at h
  | some ot =>
    simp [tmap] at hn
    simp [localGetT, tmap] at h
    cases osm <;>
      simp [extend, localGetT, tmap, TypeMap.get_extend_of_some _ _ _ _ hn h]

theorem localGetS_extend_of_some (m other : MetaInfo Val) (k v : String)
    (hn : ∀ m0 ∈ other.smap, (alistKeys m0).Nodup)
    (h : other.localGetS k = some v) :
    (m.extend other).localGetS k = some v := by
  obtain ⟨p, tm, sm⟩ := m
  obtain ⟨q, otm, osm⟩ := other
  cases osm with
  | none => simp [localGetS, smap] at h
  | some os =>
    simp [smap] at hn
    simp [localGetS, smap] at h
    cases otm <;>
      simp [extend, localGetS, smap, alistGet_extend_of_some _ _ _ _ hn h]

theorem wf_mk_iff (p : Option (MetaInfo Val)) (tm : Option (TypeMap Val))
    (sm : Option SMap) :
    (MetaInfo.mk p tm sm).WF ↔
      (∀ m0 ∈ tm, m0.WF) ∧ (∀ m0 ∈ sm, (alistKeys m0).Nodup) ∧
        (∀ par ∈ p, par.WF) := by
  simp [WF]

theorem wf_getD_tmap (tm : Option (TypeMap Val))
    (h : ∀ m0 ∈ tm, m0.WF) : (tm.getD TypeMap.empty).WF := by
  cases tm with
  | none => exact TypeMap.wf_empty
  | some t0 => exact h t0 rfl

theorem nodup_getD_smap (sm : Option SMap)
    (h : ∀ m0 ∈ sm, (alistKeys m0).Nodup) :
    (alistKeys (sm.getD [])).Nodup := by
  cases sm with
  | none => simp [alistKeys_nil]
  | some s0 => exact h s0 rfl

theorem wf_new : (new : MetaInfo Val).WF := by
  simp [new, wf_mk_iff]

theorem wf_fromParent (p : MetaInfo Val) (h : p.WF) :
    (fromParent p).WF := by
  simp [fromParent, wf_mk_iff, h]

theorem wf_insert (m : MetaInfo Val) (t : TypeId) (v : Val) (h : m.WF) :
    (m.insert t v).WF := by
  obtain ⟨p, tm, sm⟩ := m
  rw [wf_mk_iff] at h
  obtain ⟨h1, h2, h3⟩ := h
  rw [insert, wf_mk_iff]
  refine ⟨fun m0 hm0 => ?_, h2, h3⟩
  rw [Option.mem_def, Option.some_inj] at hm0
  subst hm0
  exact TypeMap.insert_wf _ t v (wf_getD_tmap tm h1)

theorem wf_insertString (m : MetaInfo Val) (k v : String) (h : m.WF) :
    (m.insertString k v).WF := by
  obtain ⟨p, tm, sm⟩ := m
  rw [wf_mk_iff] at h
  obtain ⟨h1, h2, h3⟩ := h
  rw [insertString, wf_mk_iff]
  refine ⟨h1, fun m0 hm0 => ?_, h3⟩
  rw [Option.mem_def, Option.some_inj] at hm0
  subst hm0
  exact alistKeys_insert_nodup _ k v (nodup_getD_smap sm h2)

theorem wf_remove (m : MetaInfo Val) (t : TypeId) (h : m.WF) :
    (m.remove t).1.WF := by
  obtain ⟨p, tm, sm⟩ := m
  rw [wf_mk_iff] at h
  obtain ⟨h1, h2, h3⟩ := h
  cases tm with
  | none => rw [remove, wf_mk_iff]; exact ⟨by simp, h2, h3⟩
  | some m0 =>
    rw [remove, wf_mk_iff]
    refine ⟨fun m1 hm1 => ?_, h2, h3⟩
    rw [Option.mem_def, Option.some_inj] at hm1
    subst hm1
    exact TypeMap.remove_wf m0 t (h1 m0 rfl)

theorem wf_removeString (m : MetaInfo Val) (k : String) (h : m.WF) :
    (m.removeString k).1.WF := by
  obtain ⟨p, tm, sm⟩ := m
  rw [wf_mk_iff] at h
  obtain ⟨h1, h2, h3⟩ := h
  cases sm with
  | none => rw [removeString, wf_mk_iff]; exact ⟨h1, by simp, h3⟩
  | some m0 =>
    rw [removeString, wf_mk_iff]
    refine ⟨h1, fun m1 hm1 => ?_, h3⟩
    rw [Option.mem_def, Option.some_inj] at hm1
    subst hm1
    exact alistKeys_remove_nodup m0 k (h2 m0 rfl)

theorem wf_clear (m : MetaInfo Val) (h : m.WF) : m.clear.WF := by
  obtain ⟨p, tm, sm⟩ := m
  rw [wf_mk_iff] at h
  obtain ⟨h1, h2, h3⟩ := h
  rw [clear, wf_mk_iff]
  refine ⟨fun m0 hm0 => ?_, fun m0 hm0 => ?_, h3⟩
  · cases tm with
    | none => simp at hm0
    | some t0 =>
      simp only [Option.map_some', Option.mem_def, Option.some_inj] at hm0
      subst hm0
      exact TypeMap.clear_wf t0
  · cases sm with
    | none => simp at hm0
    | some s0 =>
      simp only [Option.map_some', Option.mem_def, Option.some_inj] at hm0
      subst hm0
      simp [alistKeys_nil]

theorem wf_extend (m other : MetaInfo Val) (h : m.WF) (h' : other.WF) :
    (m.extend other).WF := by
  obtain ⟨p, tm, sm⟩ := m
  obtain ⟨q, otm, osm⟩ := other
  rw [wf_mk_iff] at h h'
  obtain ⟨h1, h2, h3⟩ := h
  obtain ⟨h1', h2', _⟩ := h'
  rw [extend.eq_def, wf_mk_iff]
  refine ⟨fun m0 hm0 => ?_, fun m0 hm0 => ?_, h3⟩
  · cases otm with
    | none => exact h1 m0 hm0
    | some ot =>
      simp only [Option.mem_def, Option.some_inj] at hm0
      subst hm0
      exact TypeMap.extend_wf _ ot (wf_getD_tmap tm h1) (h1' ot rfl).2
  · cases osm with
    | none => exact h2 m0 hm0
    | some os =>
      simp only [Option.mem_def, Option.some_inj] at hm0
      subst hm0
      exact alistKeys_extend_nodup _ os (nodup_getD_smap sm h2)

theorem wf_tmap_nodup (m : MetaInfo Val) (h : m.WF) :
    ∀ m0 ∈ m.tmap, (alistKeys m0.inner).Nodup := by
  obtain ⟨p, tm, sm⟩ := m
  rw [wf_mk_iff] at h
  exact fun m0 hm0 => (h.1 m0 hm0).1

theorem wf_tmap_wf (m : MetaInfo Val) (h : m.WF) : ∀ m0 ∈ m.tmap, m0.WF := by
  obtain ⟨p, tm, sm⟩ := m
  rw [wf_mk_iff] at h
  exact h.1

theorem wf_smap_nodup (m : MetaInfo Val) (h : m.WF) :
    ∀ m0 ∈ m.smap, (alistKeys m0).Nodup := by
  obtain ⟨p, tm, sm⟩ := m
  rw [wf_mk_iff] at h
  exact h.2.1

theorem contains_eq_isSome_get :
    ∀ (m : MetaInfo Val), m.WF → ∀ t : TypeId,
      m.contains t = (m.get t).isSome
  | .mk p tm sm, h, t => by
    have h' : (∀ m0 ∈ tm, m0.WF) ∧ (∀ m0 ∈ sm, (alistKeys m0).Nodup) ∧
        (∀ par ∈ p, par.WF) := by simpa [WF] using h
    obtain ⟨h1, _, h3⟩ := h'
    have hloc : (tm.map fun m0 => m0.contains t).getD false =
        (tm.bind fun m0 => m0.get t).isSome := by
      cases tm with
      | none => rfl
      | some m0 => simpa using TypeMap.contains_eq_isSome m0 t (h1 m0 rfl).2
    cases p with
    | none => simpa [contains, get] using hloc
    | some par =>
      have ih := contains_eq_isSome_get par (h3 par rfl) t
      cases hg : (tm.bind fun m0 => m0.get t) with
      | some v =>
        rw [hg] at hloc
        simp [contains, get, hg, hloc, Option.orElse]
      | none =>
        rw [hg] at hloc
        simp [contains, get, hg, hloc, Option.orElse, ih]

theorem containsString_eq_isSome_get :
    ∀ (m : MetaInfo Val), ∀ k : String,
      m.containsString k = (m.getString k).isSome
  | .mk p tm sm, k => by
    have hloc : (sm.map fun m0 => alistContains m0 k).getD false =
        (sm.bind fun m0 => alistGet m0 k).isSome := by
      cases sm with
      | none => rfl
      | some m0 => simpa using alistContains_eq_isSome m0 k
    cases p with
    | none => simpa [containsString, getString] using hloc
    | some par =>
      have ih := containsString_eq_isSome_get par k
      cases hg : (sm.bind fun m0 => alistGet m0 k) with
      | some v =>
        rw [hg] at hloc
        simp [containsString, getString, hg, hloc, Option.orElse]
      | none =>
        rw [hg] at hloc
        simp [containsString, getString, hg, hloc, Option.orElse, ih]

end MetaInfo

open MetaInfo

/-- C1: Parent fallback lookup: a child constructed by `from(parent)`
returns every typed and string value held by the parent chain; lookup
checks the current scope first, on a local miss delegates to the parent,
and at a parentless root a miss yields `None`. -/
theorem c1_parent_fallback_lookup {Val : Type} (p : MetaInfo Val)
    (t : TypeId) (v : Val) (k s : String)
    (hv : p.get t = some v) (hs : p.getString k = some s) :
    (fromParent p).get t = some v ∧
    (fromParent p).getString k = some s ∧
    (∀ (m : MetaInfo Val) (w : Val), m.localGetT t = some w →
      m.get t = some w) ∧
    (∀ (m : MetaInfo Val) (w : String), m.localGetS k = some w →
      m.getString k = some w) ∧
    (∀ m : MetaInfo Val, m.localGetT t = none → m.parent = some p →
      m.get t = p.get t) ∧
    (∀ m : MetaInfo Val, m.localGetS k = none → m.parent = some p →
      m.getString k = p.getString k) ∧
    (∀ m : MetaInfo Val, m.localGetT t = none → m.parent = none →
      m.get t = none) ∧
    (∀ m : MetaInfo Val, m.localGetS k = none → m.parent = none →
      m.getString k = none) :=
  ⟨by rw [get_fromParent]; exact hv,
   by rw [getString_fromParent]; exact hs,
   fun m w h => get_local_some m t w h,
   fun m w h => getString_local_some m k w h,
   fun m h hp => get_local_none m t p h hp,
   fun m h hp => getString_local_none m k p h hp,
   fun m h hp => get_root_none m t h hp,
   fun m h hp => getString_root_none m k h hp⟩

/-- Witness for C1 at a concrete root holding `i8 ↦ 2` and `"a" ↦ "x"`. -/
theorem c1_witness :
    (fromParent (((MetaInfo.new : MetaInfo Int).insert 0 2).insertString
      "a" "x")).get 0 = some 2 ∧
    (fromParent (((MetaInfo.new : MetaInfo Int).insert 0 2).insertString
      "a" "x")).getString "a" = some "x" := by
  have h := c1_parent_fallback_lookup
    (((MetaInfo.new : MetaInfo Int).insert 0 2).insertString "a" "x")
    0 2 "a" "x" rfl rfl
  exact ⟨h.1, h.2.1⟩

/-- C2: Shadow-then-unshadow: inserting `v2` locally shadows the parent's
value for `T`; a subsequent local removal deletes only the local entry, so
the parent's value becomes visible again, the parent reference being
untouched. -/
theorem c2_shadow_then_unshadow {Val : Type} (c p : MetaInfo Val)
    (t : TypeId) (v v2 : Val)
    (hpar : c.parent = some p) (hv : p.get t = some v) (hwf : c.WF) :
    (c.insert t v2).get t = some v2 ∧
    ((c.insert t v2).remove t).1.get t = some v ∧
    ((c.insert t v2).remove t).1.parent = some p := by
  have h1 : (c.insert t v2).get t = some v2 :=
    get_local_some _ t v2 (localGetT_insert_self c t v2)
  have hnd : ∀ m0 ∈ (c.insert t v2).tmap, (alistKeys m0.inner).Nodup :=
    wf_tmap_nodup _ (wf_insert c t v2 hwf)
  have h2 : ((c.insert t v2).remove t).1.localGetT t = none :=
    localGetT_remove_self (c.insert t v2) t hnd
  have hp2 : ((c.insert t v2).remove t).1.parent = some p := by
    rw [parent_remove, parent_insert, hpar]
  exact ⟨h1, by rw [get_local_none _ t p h2 hp2]; exact hv, hp2⟩

/-- Witness for C2: parent holds `i8 ↦ 2`, child inserts 4 then removes;
mirrors the crate's doc example. -/
theorem c2_witness :
    ((fromParent ((MetaInfo.new : MetaInfo Int).insert 0 2)).insert 0 4).get 0
      = some 4 ∧
    (((fromParent ((MetaInfo.new : MetaInfo Int).insert 0 2)).insert 0 4).remove
      0).1.get 0 = some 2 := by
  have h := c2_shadow_then_unshadow
    (fromParent ((MetaInfo.new : MetaInfo Int).insert 0 2))
    ((MetaInfo.new : MetaInfo Int).insert 0 2) 0 2 4 rfl rfl
    (wf_fromParent _ (wf_insert _ 0 2 wf_new))
  exact ⟨h.1, h.2.1⟩

/-- C3: Channel append plus first-match: `set_persistent` always appends
(even on a duplicate key), `get_persistent` returns the first entry in
insertion order, and `del_persistent` removes only that first entry, after
which the second write becomes visible. -/
theorem c3_channel_append_first_match (n1 n2 n3 : Node) (k v1 v2 : String)
    (h1 : n1.get_persistent k = none) (h2 : n2.get_transient k = none)
    (h3 : n3.get_stale k = none) :
    (∀ v : String, (n1.set_persistent k v).persistent =
      some (n1.persistent.getD [] ++ [⟨k, v⟩])) ∧
    (∀ v : String, (n2.set_transient k v).transient =
      some (n2.transient.getD [] ++ [⟨k, v⟩])) ∧
    (∀ v : String, (n3.set_stale k v).stale =
      some (n3.stale.getD [] ++ [⟨k, v⟩])) ∧
    ((n1.set_persistent k v1).set_persistent k v2).get_persistent k
      = some v1 ∧
    ((n2.set_transient k v1).set_transient k v2).get_transient k
      = some v1 ∧
    ((n3.set_stale k v1).set_stale k v2).get_stale k = some v1 ∧
    (((n1.set_persistent k v1).set_persistent k v2).del_persistent
      k).get_persistent k = some v2 ∧
    (((n2.set_transient k v1).set_transient k v2).del_transient
      k).get_transient k = some v2 ∧
    (((n3.set_stale k v1).set_stale k v2).del_stale k).get_stale k
      = some v2 :=
  ⟨fun _ => rfl, fun _ => rfl, fun _ => rfl,
   getChannel_set_set n1.persistent k v1 v2 h1,
   getChannel_set_set n2.transient k v1 v2 h2,
   getChannel_set_set n3.stale k v1 v2 h3,
   getChannel_del_set_set n1.persistent k v1 v2 h1,
   getChannel_del_set_set n2.transient k v1 v2 h2,
   getChannel_del_set_set n3.stale k v1 v2 h3⟩

/-- Witness for C3 at the spec's concrete example on a fresh node. -/
theorem c3_witness :
    ((Node.default.set_persistent "k" "1").set_persistent "k"
      "2").get_persistent "k" = some "1" ∧
    (((Node.default.set_persistent "k" "1").set_persistent "k"
      "2").del_persistent "k").get_persistent "k" = some "2" := by
  have h := c3_channel_append_first_match Node.default Node.default
    Node.default "k" "1" "2" rfl rfl rfl
  exact ⟨h.2.2.2.1, h.2.2.2.2.2.2.1⟩

/-- C4: Mutation locality: every mutating operation leaves the parent
reference (hence every ancestor scope) unchanged, and after `clear()` the
parent's typed and string entries are still reachable by fallback. -/
theorem c4_mutation_locality {Val : Type} (m p : MetaInfo Val) (t : TypeId)
    (k : String) (v : Val) (s : String)
    (hpar : m.parent = some p) (hv : p.get t = some v)
    (hs : p.getString k = some s) :
    (∀ (t' : TypeId) (w : Val), (m.insert t' w).parent = m.parent) ∧
    (∀ k' v' : String, (m.insertString k' v').parent = m.parent) ∧
    (∀ t' : TypeId, (m.remove t').1.parent = m.parent) ∧
    (∀ k' : String, (m.removeString k').1.parent = m.parent) ∧
    m.clear.parent = m.parent ∧
    (∀ other : MetaInfo Val, (m.extend other).parent = m.parent) ∧
    m.clear.get t = some v ∧
    m.clear.getString k = some s ∧
    (∀ (t' : TypeId) (w : Val), (m.insert t' w).smap = m.smap) ∧
    (∀ k' v' : String, (m.insertString k' v').tmap = m.tmap) ∧
    (∀ t' : TypeId, (m.remove t').1.smap = m.smap) ∧
    (∀ k' : String, (m.removeString k').1.tmap = m.tmap) := by
  have hcp : m.clear.parent = some p := by rw [parent_clear, hpar]
  refine ⟨fun t' w => parent_insert m t' w,
    fun k' v' => parent_insertString m k' v',
    fun t' => parent_remove m t', fun k' => parent_removeString m k',
    parent_clear m, fun other => parent_extend m other, ?_, ?_,
    fun t' w => smap_insert m t' w, fun k' v' => tmap_insertString m k' v',
    fun t' => smap_remove m t', fun k' => tmap_removeString m k'⟩
  · rw [get_local_none _ t p (localGetT_clear m t) hcp]; exact hv
  · rw [getString_local_none _ k p (localGetS_clear m k) hcp]; exact hs

/-- Witness for C4: a child that inserted its own values, then cleared,
still reads the parent's `0 ↦ 2` and `"a" ↦ "x"` by fallback. -/
theorem c4_witness :
    ((fromParent (((MetaInfo.new : MetaInfo Int).insert 0 2).insertString
      "a" "x")).insert 0 9).clear.get 0 = some 2 ∧
    ((fromParent (((MetaInfo.new : MetaInfo Int).insert 0 2).insertString
      "a" "x")).insert 0 9).clear.getString "a" = some "x" := by
  have h := c4_mutation_locality
    ((fromParent (((MetaInfo.new : MetaInfo Int).insert 0 2).insertString
      "a" "x")).insert 0 9)
    (((MetaInfo.new : MetaInfo Int).insert 0 2).insertString "a" "x")
    0 "a" 2 "x" rfl rfl rfl
  exact ⟨h.2.2.2.2.2.2.1, h.2.2.2.2.2.2.2.1⟩

/-- C5: No-op removal: removing a type or string key that the scope does
not hold locally changes nothing at all — the scope (parent included) is
returned unchanged with result `None`, and fallback to the parent's value
still works afterwards. -/
theorem c5_noop_removal {Val : Type} (m : MetaInfo Val) (t : TypeId)
    (k : String)
    (ht : m.localContainsT t = false) (hk : m.localContainsS k = false) :
    m.remove t = (m, none) ∧
    m.removeString k = (m, none) ∧
    (∀ (p : MetaInfo Val) (v : Val), m.parent = some p → p.get t = some v →
      (m.remove t).1.get t = some v) := by
  refine ⟨remove_no_op m t ht, removeString_no_op m k hk, ?_⟩
  intro p v hp hv
  rw [remove_no_op m t ht]
  show m.get t = some v
  rw [get_local_none m t p (localContainsT_eq_false_localGetT m t ht) hp]
  exact hv

/-- Witness for C5: a fresh child of a root holding `0 ↦ 2` removes
nothing and still reads the parent's value. -/
theorem c5_witness :
    (fromParent ((MetaInfo.new : MetaInfo Int).insert 0 2)).remove 0 =
      (fromParent ((MetaInfo.new : MetaInfo Int).insert 0 2), none) ∧
    ((fromParent ((MetaInfo.new : MetaInfo Int).insert 0 2)).remove 0).1.get 0
      = some 2 := by
  have h := c5_noop_removal
    (fromParent ((MetaInfo.new : MetaInfo Int).insert 0 2)) 0 "a" rfl rfl
  exact ⟨h.1, h.2.2 _ 2 rfl rfl⟩

/-- C6: Extend semantics: `A.extend(B)` merges B's local typed and string
entries into A's local maps with collisions favouring B, ignores B's
parent entirely, and leaves A's parent reference unchanged. -/
theorem c6_extend_semantics {Val : Type} (a b : MetaInfo Val) (t : TypeId)
    (v : Val) (k s : String) (hb : b.WF)
    (hv : b.localGetT t = some v) (hs : b.localGetS k = some s) :
    (a.extend b).get t = some v ∧
    (a.extend b).getString k = some s ∧
    (a.extend b).parent = a.parent ∧
    (∀ q : Option (MetaInfo Val),
      a.extend (MetaInfo.mk q b.tmap b.smap) = a.extend b) := by
  refine ⟨?_, ?_, parent_extend a b, ?_⟩
  · exact get_local_some _ t v
      (localGetT_extend_of_some a b t v (wf_tmap_nodup b hb) hv)
  · exact getString_local_some _ k s
      (localGetS_extend_of_some a b k s (wf_smap_nodup b hb) hs)
  · intro q
    obtain ⟨qb, otm, osm⟩ := b
    exact extend_ignores_other_parent a q qb otm osm

/-- Witness for C6 at the spec's example: A holds `x ↦ 5`, B holds
`x ↦ 15` (and `"b" ↦ "y"`); after the extend A reads B's values. -/
theorem c6_witness :
    (((MetaInfo.new : MetaInfo Int).insert 0 5).extend
      (((MetaInfo.new : MetaInfo Int).insert 0 15).insertString "b"
        "y")).get 0 = some 15 ∧
    (((MetaInfo.new : MetaInfo Int).insert 0 5).extend
      (((MetaInfo.new : MetaInfo Int).insert 0 15).insertString "b"
        "y")).getString "b" = some "y" := by
  have h := c6_extend_semantics ((MetaInfo.new : MetaInfo Int).insert 0 5)
    (((MetaInfo.new : MetaInfo Int).insert 0 15).insertString "b" "y")
    0 15 "b" "y" (wf_insertString _ "b" "y" (wf_insert _ 0 15 wf_new))
    rfl rfl
  exact ⟨h.1, h.2.1⟩

/-- C7: Channel lazy creation: every channel of a fresh node is absent
(`None`, not empty); the first `set` creates the one-element sequence; a
`del` on a never-created channel returns the node entirely unchanged. -/
theorem c7_lazy_channel_creation (n1 n2 n3 : Node) (k v : String)
    (h1 : n1.persistent = none) (h2 : n2.transient = none)
    (h3 : n3.stale = none) :
    Node.default.persistent = none ∧ Node.default.transient = none ∧
    Node.default.stale = none ∧
    (n1.set_persistent k v).persistent = some [⟨k, v⟩] ∧
    (n2.set_transient k v).transient = some [⟨k, v⟩] ∧
    (n3.set_stale k v).stale = some [⟨k, v⟩] ∧
    n1.del_persistent k = n1 ∧ n2.del_transient k = n2 ∧
    n3.del_stale k = n3 := by
  obtain ⟨p1, t1, s1⟩ := n1
  obtain ⟨p2, t2, s2⟩ := n2
  obtain ⟨p3, t3, s3⟩ := n3
  simp only [Node.persistent] at h1
  simp only [Node.transient] at h2
  simp only [Node.stale] at h3
  subst h1; subst h2; subst h3
  refine ⟨rfl, rfl, rfl, rfl, rfl, rfl, rfl, rfl, rfl⟩

/-- Witness for C7 on a fresh node. -/
theorem c7_witness :
    (Node.default.set_persistent "k" "v").persistent = some [⟨"k", "v"⟩] ∧
    Node.default.del_persistent "k" = Node.default := by
  have h := c7_lazy_channel_creation Node.default Node.default Node.default
    "k" "v" rfl rfl rfl
  exact ⟨h.2.2.2.1, h.2.2.2.2.2.2.1⟩

/-- C8: `contains` agrees with `get`: on every well-formed scope, the
boolean tests return `true` exactly when the corresponding lookup
(following the same local-then-parent fallback) returns a value. -/
theorem c8_contains_agrees_with_get {Val : Type} (m : MetaInfo Val)
    (t : TypeId) (k : String) (h : m.WF) :
    m.contains t = (m.get t).isSome ∧
    m.containsString k = (m.getString k).isSome :=
  ⟨contains_eq_isSome_get m h t, containsString_eq_isSome_get m k⟩

/-- Witness for C8 on a child of a populated root, at a hit and a miss. -/
theorem c8_witness :
    (fromParent (((MetaInfo.new : MetaInfo Int).insert 0 2).insertString
      "a" "x")).contains 0 =
      ((fromParent (((MetaInfo.new : MetaInfo Int).insert 0 2).insertString
        "a" "x")).get 0).isSome ∧
    (fromParent (((MetaInfo.new : MetaInfo Int).insert 0 2).insertString
      "a" "x")).containsString "zzz" =
      ((fromParent (((MetaInfo.new : MetaInfo Int).insert 0 2).insertString
        "a" "x")).getString "zzz").isSome := by
  have h := c8_contains_agrees_with_get
    (fromParent (((MetaInfo.new : MetaInfo Int).insert 0 2).insertString
      "a" "x")) 0 "zzz"
    (wf_fromParent _ (wf_insertString _ "a" "x" (wf_insert _ 0 2 wf_new)))
  exact ⟨h.1, h.2⟩

/-- C9: Totality of the failure model: reads of unset keys return absent
rather than an error, the `unwrap` in `set_impl` never panics, the `Any`
downcasts in `TypeMap::get`/`remove` succeed on every well-formed map,
and well-formedness is preserved by every constructor and mutation, so
those error branches are unreachable from the API. -/
theorem c9_totality {Val : Type} (ch : Option (List KV)) (k v : String)
    (m : TypeMap Val) (t : TypeId) (w : Val) (mi other : MetaInfo Val)
    (hm : m.WF) (hmi : mi.WF) (hother : other.WF) :
    setChannelChecked ch k v = some (setChannel ch k v) ∧
    m.get t = (alistGet m.inner t).map AnyObject.val ∧
    (m.remove t).2 = (alistGet m.inner t).map AnyObject.val ∧
    (MetaInfo.new : MetaInfo Val).WF ∧
    (fromParent mi).WF ∧
    (mi.insert t w).WF ∧
    (mi.insertString k v).WF ∧
    (mi.remove t).1.WF ∧
    (mi.removeString k).1.WF ∧
    mi.clear.WF ∧
    (mi.extend other).WF ∧
    Node.default.get_persistent k = none ∧
    (MetaInfo.new : MetaInfo Val).get t = none ∧
    (MetaInfo.new : MetaInfo Val).getString k = none := by
  refine ⟨?_, TypeMap.get_eq_raw m t hm.2, TypeMap.remove_snd_eq_raw m t hm.2,
    wf_new, wf_fromParent mi hmi, wf_insert mi t w hmi,
    wf_insertString mi k v hmi, wf_remove mi t hmi,
    wf_removeString mi k hmi, wf_clear mi hmi,
    wf_extend mi other hmi hother, rfl, rfl, rfl⟩
  cases ch <;> rfl

/-- Witness for C9 at concrete well-formed stores. -/
theorem c9_witness :
    setChannelChecked none "k" "1" = some (setChannel none "k" "1") ∧
    ((TypeMap.empty : TypeMap Int).insert 0 2).get 0 =
      (alistGet ((TypeMap.empty : TypeMap Int).insert 0 2).inner 0).map
        AnyObject.val := by
  have h := c9_totality (none : Option (List KV)) "k" "1"
    ((TypeMap.empty : TypeMap Int).insert 0 2) 0 7
    ((MetaInfo.new : MetaInfo Int).insert 0 2)
    (MetaInfo.new : MetaInfo Int)
    (TypeMap.insert_wf _ 0 2 TypeMap.wf_empty)
    (wf_insert _ 0 2 wf_new) wf_new
  exact ⟨h.1, h.2.1⟩

/-- C10: String insertion replaces rather than appends: two inserts under
the same key leave exactly one local entry holding the second value (and
typed insert likewise overwrites), in contrast to the channel store where
both writes accumulate and the first wins on read. -/
theorem c10_string_insert_replaces {Val : Type} (m : MetaInfo Val)
    (k v1 v2 : String) (t : TypeId) (w1 w2 : Val) (h : m.WF) :
    ((m.insertString k v1).insertString k v2).localCountS k = 1 ∧
    ((m.insertString k v1).insertString k v2).getString k = some v2 ∧
    ((m.insert t w1).insert t w2).get t = some w2 ∧
    ((m.insert t w1).insert t w2).localCountT t = 1 ∧
    ((Node.default.set_persistent k v1).set_persistent k v2).persistent =
      some [⟨k, v1⟩, ⟨k, v2⟩] ∧
    ((Node.default.set_persistent k v1).set_persistent k
      v2).get_persistent k = some v1 := by
  obtain ⟨p, tm, sm⟩ := m
  refine ⟨?_, ?_, ?_, ?_, rfl, ?_⟩
  · show alistCount (alistInsert (alistInsert (sm.getD []) k v1) k v2) k = 1
    exact alistCount_insert_nodup _ k v2
      (alistKeys_insert_nodup _ k v1
        (nodup_getD_smap sm (wf_smap_nodup _ h)))
  · exact getString_local_some _ k v2 (localGetS_insertString_self _ k v2)
  · exact get_local_some _ t w2 (localGetT_insert_self _ t w2)
  · show alistCount
      (alistInsert (alistInsert ((tm.getD TypeMap.empty).inner) t ⟨t, w1⟩)
        t ⟨t, w2⟩) t = 1
    exact alistCount_insert_nodup _ t _
      (alistKeys_insert_nodup _ t _
        (wf_getD_tmap tm (wf_tmap_wf _ h)).1)
  · show getChannel (some [⟨k, v1⟩, ⟨k, v2⟩]) k = some v1
    simp [getChannel, kvFind]

/-- Witness for C10 on an empty scope. -/
theorem c10_witness :
    (((MetaInfo.new : MetaInfo Int).insertString "k" "1").insertString "k"
      "2").localCountS "k" = 1 ∧
    (((MetaInfo.new : MetaInfo Int).insertString "k" "1").insertString "k"
      "2").getString "k" = some "2" := by
  have h := c10_string_insert_replaces (MetaInfo.new : MetaInfo Int)
    "k" "1" "2" 0 (5 : Int) 7 wf_new
  exact ⟨h.1, h.2.1⟩

end Metainfo
